import Mathlib

/-
Verification of the Bulls-and-Cows solver (src/solver.py).

Shallow embedding conventions:
  * Python ints are `ℕ` where the source only ever handles naturals
    (candidate numbers, digits, loop indices) and `ℤ` where the
    surrounding code could supply any int (the (bulls, cows) feedback
    pairs handed to the game API).
  * `str(number)` is embedded as `str_digits`, the big-endian list of
    decimal digits of the number (one list entry per character).
  * The float entropy arithmetic of the source is embedded over `ℝ`
    (`Real.log` in place of `math.log`), so the entropy definitions are
    noncomputable; everything comparing or summing entropies is exact
    real arithmetic.
  * `random.shuffle` is modelled by passing the shuffled list as an
    explicit argument, constrained to be a permutation of the list the
    source shuffles.
  * The mutable `current_min_entropy` cell shared by one ranking pass is
    threaded explicitly through the evaluation loop as a state value.
-/

namespace BullsAndCows

/-- NUM_DIGITS = 4 (src/solver.py line 11). -/
def NUM_DIGITS : ℕ := 4

/-- Big-endian decimal digit list of a natural number, with explicit fuel so
that the recursion is structural; `digitsAux (n+1) n` always has enough fuel.
This embeds the character list of Python str(number). -/
def digitsAux : ℕ → ℕ → List ℕ
  | 0, _ => []
  | fuel + 1, n => if n < 10 then [n] else digitsAux fuel (n / 10) ++ [n % 10]

/-- The digit list of str(number). -/
def str_digits (n : ℕ) : List ℕ := digitsAux (n + 1) n

/-- is_allowed_number (src/solver.py lines 14-15):
len(str(number)) == NUM_DIGITS and len(set(str(number))) == NUM_DIGITS.
The cardinality of the set of characters is the length of the deduplicated
digit list. -/
def is_allowed_number (number : ℕ) : Bool :=
  decide ((str_digits number).length = NUM_DIGITS) &&
    decide ((str_digits number).dedup.length = NUM_DIGITS)

/-- ALL_NUMBERS (src/solver.py line 18): the numbers of range(1000, 10000)
that pass is_allowed_number.  range(1000, 10000) is the 9000-element
arithmetic progression starting at 1000. -/
def ALL_NUMBERS : List ℕ := (List.range' 1000 9000).filter is_allowed_number

/-- POTENTIAL_ANSWERS (src/solver.py line 19), verbatim.  Feedback pairs are
embedded as pairs of ints. -/
def POTENTIAL_ANSWERS : List (ℤ × ℤ) :=
  [(0, 1), (0, 2), (1, 1), (1, 0), (0, 0), (0, 3), (1, 2), (2, 0), (2, 1),
   (3, 0), (0, 4), (1, 3), (2, 2), (4, 0)]

/-- The nested loop of count_bulls_and_cows (src/solver.py lines 28-34),
acting on the two digit lists: for i in range(NUM_DIGITS), for j in
range(NUM_DIGITS), if number[i] == question[j] then increment bulls when
i == j and cows otherwise.  The (bulls, cows) accumulator is threaded
through the two folds. -/
def bc_loop (number question : List ℕ) : ℕ × ℕ :=
  (List.range NUM_DIGITS).foldl (fun acc i =>
    (List.range NUM_DIGITS).foldl (fun acc j =>
      if number.getD i 0 = question.getD j 0 then
        if i = j then (acc.1 + 1, acc.2) else (acc.1, acc.2 + 1)
      else acc) acc) (0, 0)

/-- count_bulls_and_cows (src/solver.py lines 23-35): convert both numbers
to their digit strings and run the nested counting loop. -/
def count_bulls_and_cows (number question : ℕ) : ℕ × ℕ :=
  bc_loop (str_digits number) (str_digits question)

/-- number_is_consistent_with_qa (src/solver.py lines 38-39): the computed
(bulls, cows) pair equals the recorded answer.  The counts are naturals and
the recorded answer is a pair of ints, so the comparison casts the counts. -/
def number_is_consistent_with_qa (number question : ℕ) (answer : ℤ × ℤ) : Bool :=
  decide ((((count_bulls_and_cows number question).1 : ℤ),
           ((count_bulls_and_cows number question).2 : ℤ)) = answer)

/-- The all(...) generator in count_possible_numbers / get_unique_possible_number
(src/solver.py lines 45 and 52): the number is consistent with every recorded
(question, answer) entry of the history. -/
def all_consistent (history : List (ℕ × (ℤ × ℤ))) (number : ℕ) : Bool :=
  history.all (fun qa => number_is_consistent_with_qa number qa.1 qa.2)

/-- count_possible_numbers (src/solver.py lines 42-47): the number of
elements of allowed_numbers consistent with the whole history. -/
def count_possible_numbers (history : List (ℕ × (ℤ × ℤ)))
    (allowed_numbers : List ℕ) : ℕ :=
  allowed_numbers.countP (all_consistent history)

/-- get_unique_possible_number (src/solver.py lines 50-54): the first element
of ALL_NUMBERS consistent with the whole history; Python falls off the loop
and returns None when there is none. -/
def get_unique_possible_number (history : List (ℕ × (ℤ × ℤ))) : Option ℕ :=
  ALL_NUMBERS.find? (all_consistent history)

/- ------------------------------------------------------------------ -/
/- C7: the potential-answer table                                      -/
/- ------------------------------------------------------------------ -/

/-- C7: the set of (bulls, cows) feedback values enumerated by the entropy
estimator, POTENTIAL_ANSWERS, contains exactly 14 pairs: all pairs of
non-negative integers with bulls + cows ≤ 4 except the unreachable pair
(3, 1). -/
theorem C7_potential_answers_characterization :
    POTENTIAL_ANSWERS.length = 14 ∧ POTENTIAL_ANSWERS.Nodup ∧
      ∀ p : ℤ × ℤ, p ∈ POTENTIAL_ANSWERS ↔
        (0 ≤ p.1 ∧ 0 ≤ p.2 ∧ p.1 + p.2 ≤ 4 ∧ p ≠ (3, 1)) := by
  refine ⟨by decide, by decide, ?_⟩
  rintro ⟨b, c⟩
  constructor
  · intro hmem
    fin_cases hmem <;> decide
  · rintro ⟨h1, h2, h3, h4⟩
    have hb : b ≤ 4 := by omega
    have hc : c ≤ 4 := by omega
    interval_cases b <;> interval_cases c <;> simp_all <;> decide

/- ------------------------------------------------------------------ -/
/- C9: count_possible_numbers is antitone in the history               -/
/- ------------------------------------------------------------------ -/

/-- C9: for every history, appended entry and fixed pool, the count of
possible numbers over the extended history is at most the count over the
original history. -/
theorem C9_count_possible_antitone (history : List (ℕ × (ℤ × ℤ)))
    (entry : ℕ × (ℤ × ℤ)) (allowed_numbers : List ℕ) :
    count_possible_numbers (history ++ [entry]) allowed_numbers ≤
      count_possible_numbers history allowed_numbers := by
  unfold count_possible_numbers
  apply List.countP_mono_left
  intro n _ h
  simp only [all_consistent, List.all_append] at h
  exact (Bool.and_eq_true _ _).mp h |>.1

/- ------------------------------------------------------------------ -/
/- Digit-string lemmas and C2: the Number Universe                     -/
/- ------------------------------------------------------------------ -/

/-- Evaluation of the digit recursion on a four-digit number (any fuel
surplus). -/
lemma digitsAux_eval (f n : ℕ) (h1 : 1000 ≤ n) (h2 : n < 10000) :
    digitsAux (f + 4) n = [n / 1000, n / 100 % 10, n / 10 % 10, n % 10] := by
  have hd1 : ¬n < 10 := by omega
  have hd2 : ¬n / 10 < 10 := by omega
  have hd3 : ¬n / 10 / 10 < 10 := by omega
  have hd4 : n / 10 / 10 / 10 < 10 := by omega
  have e4 : f + 4 = (f + 3) + 1 := rfl
  have e3 : f + 3 = (f + 2) + 1 := rfl
  have e2 : f + 2 = (f + 1) + 1 := rfl
  rw [e4, digitsAux, if_neg hd1, e3, digitsAux, if_neg hd2, e2, digitsAux, if_neg hd3,
    digitsAux, if_pos hd4]
  simp only [List.cons_append, List.nil_append, List.cons.injEq, and_true]
  omega

/-- str(n) for a four-digit n is its four decimal digits, big-endian. -/
lemma str_digits_four (n : ℕ) (h1 : 1000 ≤ n) (h2 : n < 10000) :
    str_digits n = [n / 1000, n / 100 % 10, n / 10 % 10, n % 10] := by
  have e : n + 1 = (n - 3) + 4 := by omega
  rw [str_digits, e, digitsAux_eval (n - 3) n h1 h2]

/-- A list whose deduplication has the same length is duplicate-free. -/
lemma nodup_of_dedup_length (l : List ℕ) (h : l.dedup.length = l.length) :
    l.Nodup := by
  have hsub : List.Sublist l.dedup l := List.dedup_sublist l
  have heq : l.dedup = l := hsub.eq_of_length_le (by omega)
  exact List.dedup_eq_self.mp heq

/-- A list of length four is an explicit four-element list. -/
lemma length_four_cases (l : List ℕ) (h : l.length = 4) :
    ∃ a b c d, l = [a, b, c, d] := by
  match l, h with
  | [a, b, c, d], _ => exact ⟨a, b, c, d, rfl⟩

/-- Membership in ALL_NUMBERS unpacked to the range bounds and the filter. -/
lemma mem_ALL_NUMBERS (n : ℕ) :
    n ∈ ALL_NUMBERS ↔ (1000 ≤ n ∧ n < 10000 ∧ is_allowed_number n = true) := by
  unfold ALL_NUMBERS
  rw [List.mem_filter, List.mem_range'_1]
  constructor
  · rintro ⟨⟨ha, hb⟩, hc⟩
    exact ⟨ha, by omega, hc⟩
  · rintro ⟨ha, hb, hc⟩
    exact ⟨⟨ha, by omega⟩, hc⟩

/-- C2 counterexample: the digit sequence 0123 is a sequence of four
pairwise-distinct decimal digits, yet no member of the constructed Number
Universe has it as its digit string: the universe omits every sequence with
leading digit 0. -/
theorem C2_counterexample :
    ([0, 1, 2, 3] : List ℕ).length = 4 ∧ ([0, 1, 2, 3] : List ℕ).Nodup ∧
      (∀ x ∈ ([0, 1, 2, 3] : List ℕ), x < 10) ∧
      ¬∃ n ∈ ALL_NUMBERS, str_digits n = [0, 1, 2, 3] := by
  refine ⟨by decide, by decide, by decide, ?_⟩
  rintro ⟨n, hn, hd⟩
  obtain ⟨h1, h2, -⟩ := (mem_ALL_NUMBERS n).mp hn
  rw [str_digits_four n h1 h2] at hd
  simp only [List.cons.injEq] at hd
  omega

/-- C2 amended: the Number Universe contains exactly the sequences of four
pairwise-distinct decimal digits whose leading digit is nonzero: a digit
sequence is the digit string of a member of ALL_NUMBERS iff it has length
four, pairwise-distinct digits below ten, and a nonzero first digit. -/
theorem C2_amended (d : List ℕ) :
    (∃ n ∈ ALL_NUMBERS, str_digits n = d) ↔
      (d.length = 4 ∧ d.Nodup ∧ (∀ x ∈ d, x < 10) ∧ d.headI ≠ 0) := by
  constructor
  · rintro ⟨n, hn, rfl⟩
    obtain ⟨h1, h2, hall⟩ := (mem_ALL_NUMBERS n).mp hn
    have hstr := str_digits_four n h1 h2
    simp only [is_allowed_number, NUM_DIGITS, Bool.and_eq_true, decide_eq_true_eq] at hall
    refine ⟨by rw [hstr]; rfl, ?_, ?_, ?_⟩
    · exact nodup_of_dedup_length _ (by omega)
    · rw [hstr]
      intro x hx
      simp only [List.mem_cons, List.not_mem_nil, or_false] at hx
      rcases hx with rfl | rfl | rfl | rfl <;> omega
    · rw [hstr]
      simp only [List.headI]
      omega
  · rintro ⟨hlen, hnodup, hlt, hhead⟩
    obtain ⟨d0, d1, d2, d3, rfl⟩ := length_four_cases d hlen
    have hd0 : d0 < 10 := hlt d0 (by simp)
    have hd1 : d1 < 10 := hlt d1 (by simp)
    have hd2 : d2 < 10 := hlt d2 (by simp)
    have hd3 : d3 < 10 := hlt d3 (by simp)
    have hh : d0 ≠ 0 := by simpa [List.headI] using hhead
    refine ⟨1000 * d0 + 100 * d1 + 10 * d2 + d3, ?_, ?_⟩
    · have h1 : 1000 ≤ 1000 * d0 + 100 * d1 + 10 * d2 + d3 := by omega
      have h2 : 1000 * d0 + 100 * d1 + 10 * d2 + d3 < 10000 := by omega
      have hstr := str_digits_four _ h1 h2
      rw [mem_ALL_NUMBERS]
      refine ⟨h1, h2, ?_⟩
      simp only [is_allowed_number, NUM_DIGITS, Bool.and_eq_true, decide_eq_true_eq]
      have hseq : str_digits (1000 * d0 + 100 * d1 + 10 * d2 + d3) = [d0, d1, d2, d3] := by
        rw [hstr]
        simp only [List.cons.injEq, and_true]
        omega
      rw [hseq, List.dedup_eq_self.mpr hnodup]
      exact ⟨rfl, rfl⟩
    · have h1 : 1000 ≤ 1000 * d0 + 100 * d1 + 10 * d2 + d3 := by omega
      have h2 : 1000 * d0 + 100 * d1 + 10 * d2 + d3 < 10000 := by omega
      rw [str_digits_four _ h1 h2]
      simp only [List.cons.injEq, and_true]
      omega

/- ------------------------------------------------------------------ -/
/- Closed form of the counting loop; C4 and C8                         -/
/- ------------------------------------------------------------------ -/

/-- ind p is the 0/1 indicator of the decidable proposition p. -/
def ind (p : Prop) [Decidable p] : ℕ := if p then 1 else 0

/-- The inner for-j loop of the scorer adds, to each component of the
accumulator, the number of j with a matching digit and i = j (bulls)
respectively i ≠ j (cows). -/
lemma bc_inner (a b : List ℕ) (i : ℕ) (js : List ℕ) : ∀ acc : ℕ × ℕ,
    js.foldl (fun acc j =>
      if a.getD i 0 = b.getD j 0 then
        if i = j then (acc.1 + 1, acc.2) else (acc.1, acc.2 + 1)
      else acc) acc =
    (acc.1 + (js.map (fun j => ind (a.getD i 0 = b.getD j 0 ∧ i = j))).sum,
     acc.2 + (js.map (fun j => ind (a.getD i 0 = b.getD j 0 ∧ i ≠ j))).sum) := by
  induction js with
  | nil => intro acc; simp
  | cons j js ih =>
    intro acc
    simp only [List.foldl_cons, List.map_cons, List.sum_cons]
    by_cases h1 : a.getD i 0 = b.getD j 0
    · by_cases h2 : i = j
      · have e1 : ind (a.getD i 0 = b.getD j 0 ∧ i = j) = 1 := by
          unfold ind; exact if_pos ⟨h1, h2⟩
        have e2 : ind (a.getD i 0 = b.getD j 0 ∧ i ≠ j) = 0 := by
          unfold ind; exact if_neg (fun h => h.2 h2)
        rw [if_pos h1, if_pos h2, ih, e1, e2]
        simp only [Prod.mk.injEq, Prod.fst, Prod.snd]
        omega
      · have e1 : ind (a.getD i 0 = b.getD j 0 ∧ i = j) = 0 := by
          unfold ind; exact if_neg (fun h => h2 h.2)
        have e2 : ind (a.getD i 0 = b.getD j 0 ∧ i ≠ j) = 1 := by
          unfold ind; exact if_pos ⟨h1, h2⟩
        rw [if_pos h1, if_neg h2, ih, e1, e2]
        simp only [Prod.mk.injEq, Prod.fst, Prod.snd]
        omega
    · have e1 : ind (a.getD i 0 = b.getD j 0 ∧ i = j) = 0 := by
        unfold ind; exact if_neg (fun h => h1 h.1)
      have e2 : ind (a.getD i 0 = b.getD j 0 ∧ i ≠ j) = 0 := by
        unfold ind; exact if_neg (fun h => h1 h.1)
      rw [if_neg h1, ih, e1, e2]
      simp only [Prod.mk.injEq, Prod.fst, Prod.snd]
      omega

/-- The outer for-i loop of the scorer: the whole nested loop sums the
per-row counts. -/
lemma bc_outer (a b : List ℕ) (is : List ℕ) : ∀ acc : ℕ × ℕ,
    is.foldl (fun acc i =>
      (List.range NUM_DIGITS).foldl (fun acc j =>
        if a.getD i 0 = b.getD j 0 then
          if i = j then (acc.1 + 1, acc.2) else (acc.1, acc.2 + 1)
        else acc) acc) acc =
    (acc.1 + (is.map (fun i => ((List.range NUM_DIGITS).map
        (fun j => ind (a.getD i 0 = b.getD j 0 ∧ i = j))).sum)).sum,
     acc.2 + (is.map (fun i => ((List.range NUM_DIGITS).map
        (fun j => ind (a.getD i 0 = b.getD j 0 ∧ i ≠ j))).sum)).sum) := by
  induction is with
  | nil => intro acc; simp
  | cons i is ih =>
    intro acc
    simp only [List.foldl_cons, List.map_cons, List.sum_cons]
    rw [bc_inner, ih]
    simp only [Prod.mk.injEq]
    constructor <;> simp <;> omega

/-- bc_loop as a sum of indicators over the 4 × 4 index grid. -/
lemma bc_loop_eq (a b : List ℕ) :
    bc_loop a b =
      (((List.range NUM_DIGITS).map (fun i => ((List.range NUM_DIGITS).map
          (fun j => ind (a.getD i 0 = b.getD j 0 ∧ i = j))).sum)).sum,
       ((List.range NUM_DIGITS).map (fun i => ((List.range NUM_DIGITS).map
          (fun j => ind (a.getD i 0 = b.getD j 0 ∧ i ≠ j))).sum)).sum) := by
  unfold bc_loop
  rw [bc_outer]
  simp

/-- Fully explicit value of the scorer loop on two four-digit sequences. -/
lemma bc_loop_eval (a0 a1 a2 a3 b0 b1 b2 b3 : ℕ) :
    bc_loop [a0, a1, a2, a3] [b0, b1, b2, b3] =
      (ind (a0 = b0) + ind (a1 = b1) + ind (a2 = b2) + ind (a3 = b3),
       ind (a0 = b1) + ind (a0 = b2) + ind (a0 = b3) +
       ind (a1 = b0) + ind (a1 = b2) + ind (a1 = b3) +
       ind (a2 = b0) + ind (a2 = b1) + ind (a2 = b3) +
       ind (a3 = b0) + ind (a3 = b1) + ind (a3 = b2)) := by
  rw [bc_loop_eq]
  norm_num [NUM_DIGITS, List.range_succ, ind]
  constructor <;> ring

/-- The six disequalities of a duplicate-free four-element list. -/
lemma nodup_four_ne (x0 x1 x2 x3 : ℕ) (h : ([x0, x1, x2, x3] : List ℕ).Nodup) :
    x0 ≠ x1 ∧ x0 ≠ x2 ∧ x0 ≠ x3 ∧ x1 ≠ x2 ∧ x1 ≠ x3 ∧ x2 ≠ x3 := by
  simp only [List.nodup_cons, List.mem_cons, List.not_mem_nil, or_false, not_or,
    List.nodup_nil, and_true] at h
  tauto

/-- At most one of four pairwise-distinct values can equal v. -/
lemma ind_row_le_one (v b0 b1 b2 b3 : ℕ) (h : ([b0, b1, b2, b3] : List ℕ).Nodup) :
    ind (v = b0) + ind (v = b1) + ind (v = b2) + ind (v = b3) ≤ 1 := by
  obtain ⟨n01, n02, n03, n12, n13, n23⟩ := nodup_four_ne b0 b1 b2 b3 h
  by_cases h0 : v = b0 <;> by_cases h1 : v = b1 <;> by_cases h2 : v = b2 <;>
    by_cases h3 : v = b3 <;>
    simp [ind, h0, h1, h2, h3, n01, n02, n03, n12, n13, n23] <;> omega

/-- C4: for all four-digit sequences a and b with pairwise-distinct digits,
the scorer loop satisfies bulls + cows ≤ 4, bulls = 4 iff a = b, and
score(a, a) = (4, 0). -/
theorem C4_scorer_properties (a b : List ℕ)
    (ha4 : a.length = 4) (hb4 : b.length = 4) (han : a.Nodup) (hbn : b.Nodup) :
    (bc_loop a b).1 + (bc_loop a b).2 ≤ 4 ∧
      ((bc_loop a b).1 = 4 ↔ a = b) ∧ bc_loop a a = (4, 0) := by
  obtain ⟨a0, a1, a2, a3, rfl⟩ := length_four_cases a ha4
  obtain ⟨b0, b1, b2, b3, rfl⟩ := length_four_cases b hb4
  have hevab := bc_loop_eval a0 a1 a2 a3 b0 b1 b2 b3
  have hevaa := bc_loop_eval a0 a1 a2 a3 a0 a1 a2 a3
  obtain ⟨h01, h02, h03, h12, h13, h23⟩ := nodup_four_ne a0 a1 a2 a3 han
  refine ⟨?_, ?_, ?_⟩
  · have r0 := ind_row_le_one a0 b0 b1 b2 b3 hbn
    have r1 := ind_row_le_one a1 b0 b1 b2 b3 hbn
    have r2 := ind_row_le_one a2 b0 b1 b2 b3 hbn
    have r3 := ind_row_le_one a3 b0 b1 b2 b3 hbn
    rw [hevab]
    simp only [Prod.fst, Prod.snd]
    omega
  · rw [hevab]
    simp only [Prod.fst, List.cons.injEq, and_true]
    constructor
    · intro h
      by_cases e0 : a0 = b0 <;> by_cases e1 : a1 = b1 <;> by_cases e2 : a2 = b2 <;>
        by_cases e3 : a3 = b3 <;> simp [ind, e0, e1, e2, e3] at h ⊢
    · rintro ⟨rfl, rfl, rfl, rfl⟩
      simp [ind]
  · rw [hevaa]
    have h10 : ¬a1 = a0 := fun h => h01 h.symm
    have h20 : ¬a2 = a0 := fun h => h02 h.symm
    have h30 : ¬a3 = a0 := fun h => h03 h.symm
    have h21 : ¬a2 = a1 := fun h => h12 h.symm
    have h31 : ¬a3 = a1 := fun h => h13 h.symm
    have h32 : ¬a3 = a2 := fun h => h23 h.symm
    simp [ind, h01, h02, h03, h12, h13, h23, h10, h20, h30, h21, h31, h32]

/-- C4 witness: the properties at the spec scenario a = 1234, b = 1453. -/
theorem C4_scorer_properties_witness :
    (bc_loop [1, 2, 3, 4] [1, 4, 5, 3]).1 + (bc_loop [1, 2, 3, 4] [1, 4, 5, 3]).2 ≤ 4 ∧
      ((bc_loop [1, 2, 3, 4] [1, 4, 5, 3]).1 = 4 ↔ [1, 2, 3, 4] = [1, 4, 5, 3]) ∧
      bc_loop [1, 2, 3, 4] [1, 2, 3, 4] = (4, 0) :=
  C4_scorer_properties [1, 2, 3, 4] [1, 4, 5, 3] (by decide) (by decide) (by decide)
    (by decide)

/-- C8: the scorer loop is symmetric in its two arguments for equal-length
(four-digit) sequences, with no distinctness assumption: both the bulls and
the cows component agree. -/
theorem C8_scorer_symmetric (a b : List ℕ) (ha : a.length = 4) (hb : b.length = 4) :
    bc_loop a b = bc_loop b a := by
  obtain ⟨a0, a1, a2, a3, rfl⟩ := length_four_cases a ha
  obtain ⟨b0, b1, b2, b3, rfl⟩ := length_four_cases b hb
  have comm : ∀ x y : ℕ, ind (x = y) = ind (y = x) := by
    intro x y
    by_cases h : x = y
    · unfold ind; rw [if_pos h, if_pos h.symm]
    · unfold ind; rw [if_neg h, if_neg (fun hh => h hh.symm)]
  rw [bc_loop_eval, bc_loop_eval]
  simp only [Prod.mk.injEq]
  constructor
  · rw [comm a0 b0, comm a1 b1, comm a2 b2, comm a3 b3]
  · rw [comm a0 b1, comm a0 b2, comm a0 b3, comm a1 b0, comm a1 b2, comm a1 b3,
      comm a2 b0, comm a2 b1, comm a2 b3, comm a3 b0, comm a3 b1, comm a3 b2]
    ring

/-- C8 witness: symmetry at sequences with repeated digits. -/
theorem C8_scorer_symmetric_witness :
    bc_loop [1, 1, 2, 3] [3, 1, 1, 2] = bc_loop [3, 1, 1, 2] [1, 1, 2, 3] :=
  C8_scorer_symmetric [1, 1, 2, 3] [3, 1, 1, 2] (by decide) (by decide)

/- ------------------------------------------------------------------ -/
/- Entropy estimator, pruned minimum and C1                            -/
/- ------------------------------------------------------------------ -/

/-- One summand of the entropy score (src/solver.py line 64):
-log(1 / count) * count, over the reals. -/
noncomputable def entropy_term (count : ℕ) : ℝ :=
  -Real.log (1 / (count : ℝ)) * (count : ℝ)

/-- The contribution of one potential answer to the full (non-pruned)
entropy sum: the entropy term when the count is positive, else zero.
This is the specification-side value of one iteration of the loop in
question_entropy (src/solver.py lines 61-66). -/
noncomputable def answer_term (allowed_numbers : List ℕ) (question : ℕ)
    (answer : ℤ × ℤ) : ℝ :=
  if 0 < count_possible_numbers [(question, answer)] allowed_numbers then
    entropy_term (count_possible_numbers [(question, answer)] allowed_numbers)
  else 0

/-- Sum of the contributions of a list of answers. -/
noncomputable def answers_entropy (allowed_numbers : List ℕ) (question : ℕ)
    (answers : List (ℤ × ℤ)) : ℝ :=
  (answers.map (answer_term allowed_numbers question)).sum

/-- Specification-side definition (from the spec text, not the code): the
full, non-pruned entropy sum of a question over all 14 potential answers. -/
noncomputable def question_entropy_full (allowed_numbers : List ℕ)
    (question : ℕ) : ℝ :=
  answers_entropy allowed_numbers question POTENTIAL_ANSWERS

/-- The loop of question_entropy (src/solver.py lines 58-68) with the shared
mutable current_min_entropy threaded explicitly: iterate over the remaining
answers keeping the running sum; on a positive count add its entropy term
and bail out (flag false) as soon as the running sum exceeds the shared
minimum.  Returns the result and whether the loop ran to completion. -/
noncomputable def question_entropy_go (allowed_numbers : List ℕ) (question : ℕ)
    (current_min_entropy : ℝ) : List (ℤ × ℤ) → ℝ → ℝ × Bool
  | [], result => (result, true)
  | answer :: rest, result =>
    if 0 < count_possible_numbers [(question, answer)] allowed_numbers then
      if current_min_entropy <
          result + entropy_term (count_possible_numbers [(question, answer)] allowed_numbers) then
        (result + entropy_term (count_possible_numbers [(question, answer)] allowed_numbers),
          false)
      else
        question_entropy_go allowed_numbers question current_min_entropy rest
          (result + entropy_term (count_possible_numbers [(question, answer)] allowed_numbers))
    else question_entropy_go allowed_numbers question current_min_entropy rest result

/-- One call of the stateful closure built by question_entropy_by_history
(src/solver.py lines 56-69): given the current shared minimum, return the
key value reported to min together with the updated shared minimum (set to
the result exactly when the loop completed, mirroring the nonlocal write). -/
noncomputable def question_entropy (allowed_numbers : List ℕ) (question : ℕ)
    (current_min_entropy : ℝ) : ℝ × ℝ :=
  ((question_entropy_go allowed_numbers question current_min_entropy POTENTIAL_ANSWERS 0).1,
   if (question_entropy_go allowed_numbers question current_min_entropy
        POTENTIAL_ANSWERS 0).2 = true then
     (question_entropy_go allowed_numbers question current_min_entropy POTENTIAL_ANSWERS 0).1
   else current_min_entropy)

/-- Python min over the remaining sample elements with the stateful key
function: keep the first element whose key is strictly below the best key
so far, threading the shared minimum through each evaluation. -/
noncomputable def min_loop (allowed_numbers : List ℕ) :
    List ℕ → ℕ → ℝ → ℝ → ℕ
  | [], best, _, _ => best
  | q :: rest, best, bestKey, cme =>
    if (question_entropy allowed_numbers q cme).1 < bestKey then
      min_loop allowed_numbers rest q (question_entropy allowed_numbers q cme).1
        (question_entropy allowed_numbers q cme).2
    else
      min_loop allowed_numbers rest best bestKey (question_entropy allowed_numbers q cme).2

/-- min(sample, key=question_entropy_by_history(...)) (src/solver.py line 81):
the shared minimum starts at 10 ** 9 (line 57) and the first element
becomes the starting best value. -/
noncomputable def py_min (allowed_numbers : List ℕ) : List ℕ → ℕ
  | [] => 0
  | q :: rest =>
    min_loop allowed_numbers rest q
      (question_entropy allowed_numbers q (10 ^ 9)).1
      (question_entropy allowed_numbers q (10 ^ 9)).2

/-- The pool-filtering step of get_best_question (src/solver.py lines 73-76):
for step > 1, drop the pool elements inconsistent with the most recent
history entry.  history[-1] is total here via getLast?; the source indexes
a nonempty history whenever step > 1. -/
def filter_pool (step : ℕ) (history : List (ℕ × (ℤ × ℤ))) (pool : List ℕ) : List ℕ :=
  if 1 < step then
    match history.getLast? with
    | some qa => pool.filter (fun number => number_is_consistent_with_qa number qa.1 qa.2)
    | none => pool
  else pool

/-- get_best_question (src/solver.py lines 72-81): filter the pool by the
newest history entry, sample = the shuffled filtered pool truncated to
10 ** (step - 1) elements, and take the stateful minimum.  The random
shuffle is modelled by the explicit argument `shuffled`, constrained to be
a permutation of the filtered pool wherever this function is reasoned
about. -/
noncomputable def get_best_question (step : ℕ) (history : List (ℕ × (ℤ × ℤ)))
    (pool shuffled : List ℕ) : ℕ :=
  py_min (filter_pool step history pool) (shuffled.take (10 ^ (step - 1)))

/-- Specification-side definition: the first element of the sample
minimizing f (ties broken by iteration order). -/
noncomputable def argmin_first (f : ℕ → ℝ) : List ℕ → ℕ
  | [] => 0
  | x :: xs => xs.foldl (fun best y => if f y < f best then y else best) x

/-- The entropy term is count * log count. -/
lemma entropy_term_eq_log (c : ℕ) : entropy_term c = (c : ℝ) * Real.log c := by
  unfold entropy_term
  rw [one_div, Real.log_inv]
  ring

/-- Entropy terms are non-negative. -/
lemma entropy_term_nonneg (c : ℕ) : 0 ≤ entropy_term c := by
  rw [entropy_term_eq_log]
  rcases Nat.eq_zero_or_pos c with rfl | h
  · simp
  · have h1 : (1 : ℝ) ≤ (c : ℝ) := by exact_mod_cast h
    exact mul_nonneg (by positivity) (Real.log_nonneg h1)

/-- Entropy terms of counts from a pool of at most 9000 candidates are at
most 9000 * 10 (using log 9000 < 10). -/
lemma entropy_term_le_9e4 (c : ℕ) (hc : c ≤ 9000) : entropy_term c ≤ 90000 := by
  rw [entropy_term_eq_log]
  rcases Nat.eq_zero_or_pos c with rfl | h
  · norm_num
  · have h0 : (0 : ℝ) < (c : ℝ) := by exact_mod_cast h
    have hcb : (c : ℝ) ≤ 9000 := by exact_mod_cast hc
    have hlog0 : 0 ≤ Real.log c := Real.log_nonneg (by exact_mod_cast h)
    have hlog : Real.log c ≤ Real.log 9000 := Real.log_le_log h0 hcb
    have hl10 : Real.log 9000 < 10 := by
      have h1 : (2.7 : ℝ) < Real.exp 1 := by
        have := Real.exp_one_gt_d9
        linarith
      have h2 : (2.7 : ℝ) ^ 10 < Real.exp 1 ^ 10 := by
        apply pow_lt_pow_left₀ h1 (by norm_num)
        norm_num
      have h3 : Real.exp 1 ^ 10 = Real.exp 10 := by
        rw [← Real.exp_nat_mul]
        norm_num
      refine (Real.log_lt_iff_lt_exp (by norm_num)).mpr ?_
      rw [← h3]
      calc (9000 : ℝ) < 2.7 ^ 10 := by norm_num
        _ < _ := h2
    nlinarith

/-- Answer contributions are non-negative. -/
lemma answer_term_nonneg (allowed_numbers : List ℕ) (question : ℕ) (a : ℤ × ℤ) :
    0 ≤ answer_term allowed_numbers question a := by
  unfold answer_term
  by_cases hc : 0 < count_possible_numbers [(question, a)] allowed_numbers
  · rw [if_pos hc]
    exact entropy_term_nonneg _
  · rw [if_neg hc]

/-- Entropy sums over any answer list are non-negative. -/
lemma answers_entropy_nonneg (allowed_numbers : List ℕ) (question : ℕ)
    (answers : List (ℤ × ℤ)) : 0 ≤ answers_entropy allowed_numbers question answers := by
  apply List.sum_nonneg
  intro x hx
  obtain ⟨a, _, rfl⟩ := List.mem_map.mp hx
  exact answer_term_nonneg allowed_numbers question a

/-- answers_entropy unfolds one answer at a time. -/
lemma answers_entropy_cons (allowed_numbers : List ℕ) (question : ℕ)
    (a : ℤ × ℤ) (rest : List (ℤ × ℤ)) :
    answers_entropy allowed_numbers question (a :: rest) =
      answer_term allowed_numbers question a +
        answers_entropy allowed_numbers question rest := by
  simp [answers_entropy]

/-- The universe has at most 9000 members. -/
lemma ALL_NUMBERS_length_le : ALL_NUMBERS.length ≤ 9000 := by
  unfold ALL_NUMBERS
  calc ((List.range' 1000 9000).filter is_allowed_number).length ≤
      (List.range' 1000 9000).length := List.length_filter_le _ _
    _ = 9000 := by simp

/-- The full entropy sum of any question over a duplicate-free sub-pool of
the universe stays strictly below the initial shared minimum 10 ** 9. -/
lemma question_entropy_full_lt (allowed_numbers : List ℕ) (question : ℕ)
    (h9 : allowed_numbers.length ≤ 9000) :
    question_entropy_full allowed_numbers question < 10 ^ 9 := by
  have hterm : ∀ x ∈ POTENTIAL_ANSWERS.map (answer_term allowed_numbers question),
      x ≤ 90000 := by
    intro x hx
    obtain ⟨a, _, rfl⟩ := List.mem_map.mp hx
    unfold answer_term
    by_cases hc : 0 < count_possible_numbers [(question, a)] allowed_numbers
    · rw [if_pos hc]
      apply entropy_term_le_9e4
      calc count_possible_numbers [(question, a)] allowed_numbers ≤
          allowed_numbers.length := List.countP_le_length _
        _ ≤ 9000 := h9
    · rw [if_neg hc]
      norm_num
  have hsum := List.sum_le_card_nsmul _ _ hterm
  have hlen : (POTENTIAL_ANSWERS.map (answer_term allowed_numbers question)).length = 14 := by
    simp [POTENTIAL_ANSWERS]
  rw [hlen] at hsum
  unfold question_entropy_full answers_entropy
  have : (14 : ℕ) • (90000 : ℝ) = 1260000 := by
    norm_num
  rw [this] at hsum
  calc (POTENTIAL_ANSWERS.map (answer_term allowed_numbers question)).sum ≤ 1260000 := hsum
    _ < 10 ^ 9 := by norm_num

/-- Behaviour of the evaluation loop: if it completes, the result is the
starting sum plus the full remaining entropy sum and (unless no check ever
fired, in which case the result is the starting sum) the result is at most
the shared minimum; if it bails out, the result exceeds the shared minimum
and is at most the starting sum plus the full remaining sum. -/
lemma question_entropy_go_spec (allowed_numbers : List ℕ) (question : ℕ)
    (cme : ℝ) (answers : List (ℤ × ℤ)) : ∀ r : ℝ,
    ((question_entropy_go allowed_numbers question cme answers r).2 = true ∧
      (question_entropy_go allowed_numbers question cme answers r).1 =
        r + answers_entropy allowed_numbers question answers ∧
      ((question_entropy_go allowed_numbers question cme answers r).1 ≤ cme ∨
       (question_entropy_go allowed_numbers question cme answers r).1 = r)) ∨
    ((question_entropy_go allowed_numbers question cme answers r).2 = false ∧
      cme < (question_entropy_go allowed_numbers question cme answers r).1 ∧
      (question_entropy_go allowed_numbers question cme answers r).1 ≤
        r + answers_entropy allowed_numbers question answers) := by
  induction answers with
  | nil =>
    intro r
    left
    refine ⟨?_, ?_, Or.inr ?_⟩ <;> simp [question_entropy_go, answers_entropy]
  | cons a rest ih =>
    intro r
    have hrest0 := answers_entropy_nonneg allowed_numbers question rest
    by_cases hc : 0 < count_possible_numbers [(question, a)] allowed_numbers
    · have hterma : answer_term allowed_numbers question a =
          entropy_term (count_possible_numbers [(question, a)] allowed_numbers) := by
        unfold answer_term
        rw [if_pos hc]
      by_cases hb : cme <
          r + entropy_term (count_possible_numbers [(question, a)] allowed_numbers)
      · right
        have hgo : question_entropy_go allowed_numbers question cme (a :: rest) r =
            (r + entropy_term (count_possible_numbers [(question, a)] allowed_numbers),
              false) := by
          simp only [question_entropy_go, if_pos hc, if_pos hb]
        rw [hgo]
        dsimp only
        refine ⟨rfl, hb, ?_⟩
        rw [answers_entropy_cons, hterma]
        linarith
      · have hgo : question_entropy_go allowed_numbers question cme (a :: rest) r =
            question_entropy_go allowed_numbers question cme rest
              (r + entropy_term (count_possible_numbers [(question, a)] allowed_numbers)) := by
          simp only [question_entropy_go, if_pos hc, if_neg hb]
        rw [hgo, answers_entropy_cons, hterma]
        rcases ih (r + entropy_term (count_possible_numbers [(question, a)] allowed_numbers))
          with ⟨h2, h1, h3⟩ | ⟨h2, h1, h3⟩
        · left
          refine ⟨h2, by rw [h1]; ring, Or.inl ?_⟩
          rcases h3 with h3 | h3
          · exact h3
          · rw [h3]
            linarith
        · right
          refine ⟨h2, h1, ?_⟩
          calc _ ≤ r + entropy_term (count_possible_numbers [(question, a)] allowed_numbers) +
                answers_entropy allowed_numbers question rest := h3
            _ = _ := by ring
    · have hterma : answer_term allowed_numbers question a = 0 := by
        unfold answer_term
        rw [if_neg hc]
      have hgo : question_entropy_go allowed_numbers question cme (a :: rest) r =
          question_entropy_go allowed_numbers question cme rest r := by
        simp only [question_entropy_go, if_neg hc]
      rw [hgo, answers_entropy_cons, hterma]
      rcases ih r with ⟨h2, h1, h3⟩ | ⟨h2, h1, h3⟩
      · left
        exact ⟨h2, by rw [h1]; ring, h3⟩
      · right
        refine ⟨h2, h1, ?_⟩
        calc _ ≤ r + answers_entropy allowed_numbers question rest := h3
          _ = _ := by ring

/-- Behaviour of one stateful key evaluation: either the loop completed, the
key is the full entropy sum, the new shared minimum is that same value and
it is at most the old minimum or zero; or the loop bailed out, the key
exceeds the old minimum, is at most the full sum, and the minimum is
unchanged. -/
lemma question_entropy_spec (allowed_numbers : List ℕ) (question : ℕ) (cme : ℝ) :
    (question_entropy allowed_numbers question cme =
        (question_entropy_full allowed_numbers question,
         question_entropy_full allowed_numbers question) ∧
      (question_entropy_full allowed_numbers question ≤ cme ∨
       question_entropy_full allowed_numbers question = 0)) ∨
    (cme < (question_entropy allowed_numbers question cme).1 ∧
      (question_entropy allowed_numbers question cme).1 ≤
        question_entropy_full allowed_numbers question ∧
      (question_entropy allowed_numbers question cme).2 = cme) := by
  rcases question_entropy_go_spec allowed_numbers question cme POTENTIAL_ANSWERS 0
    with ⟨h2, h1, h3⟩ | ⟨h2, h1, h3⟩
  · left
    have hfull : (question_entropy_go allowed_numbers question cme POTENTIAL_ANSWERS 0).1 =
        question_entropy_full allowed_numbers question := by
      rw [h1, question_entropy_full]
      ring
    constructor
    · unfold question_entropy
      rw [h2, if_pos rfl, hfull]
    · rcases h3 with h3 | h3
      · exact Or.inl (hfull ▸ h3)
      · exact Or.inr (hfull ▸ h3)
  · right
    have hkey : (question_entropy allowed_numbers question cme).1 =
        (question_entropy_go allowed_numbers question cme POTENTIAL_ANSWERS 0).1 := rfl
    have hsnd : (question_entropy allowed_numbers question cme).2 = cme := by
      unfold question_entropy
      rw [h2]
      simp
    refine ⟨?_, ?_, hsnd⟩
    · rw [hkey]
      exact h1
    · rw [hkey]
      rw [zero_add] at h3
      exact h3

/-- Invariant step for the stateful minimum: started from a best element
whose key is its true full entropy and a shared minimum equal to that key,
the pruned loop computes exactly the first minimum of the full entropy. -/
lemma min_loop_eq (allowed_numbers : List ℕ) (rest : List ℕ) : ∀ best : ℕ,
    min_loop allowed_numbers rest best
        (question_entropy_full allowed_numbers best)
        (question_entropy_full allowed_numbers best) =
      rest.foldl (fun b y =>
        if question_entropy_full allowed_numbers y <
            question_entropy_full allowed_numbers b then y else b) best := by
  induction rest with
  | nil => intro best; rfl
  | cons y rest ih =>
    intro best
    have h0best : 0 ≤ question_entropy_full allowed_numbers best :=
      answers_entropy_nonneg allowed_numbers best POTENTIAL_ANSWERS
    simp only [min_loop, List.foldl_cons]
    rcases question_entropy_spec allowed_numbers y
        (question_entropy_full allowed_numbers best) with ⟨heq, hle⟩ | ⟨hgt, hlef, hsnd⟩
    · rw [heq]
      by_cases hlt : question_entropy_full allowed_numbers y <
          question_entropy_full allowed_numbers best
      · rw [if_pos hlt, if_pos hlt]
        exact ih y
      · have heqF : question_entropy_full allowed_numbers y =
            question_entropy_full allowed_numbers best := by
          rcases hle with hle | hle
          · exact le_antisymm hle (not_lt.mp hlt)
          · have : question_entropy_full allowed_numbers best ≤
                question_entropy_full allowed_numbers y := not_lt.mp hlt
            rw [hle] at this ⊢
            linarith
        rw [if_neg hlt, if_neg hlt]
        rw [heqF]
        exact ih best
    · have hnotlt : ¬(question_entropy allowed_numbers y
          (question_entropy_full allowed_numbers best)).1 <
            question_entropy_full allowed_numbers best := not_lt.mpr (le_of_lt hgt)
      have hnotltF : ¬question_entropy_full allowed_numbers y <
          question_entropy_full allowed_numbers best := by
        apply not_lt.mpr
        calc question_entropy_full allowed_numbers best ≤ _ := le_of_lt hgt
          _ ≤ question_entropy_full allowed_numbers y := hlef
      rw [if_neg hnotlt, if_neg hnotltF, hsnd]
      exact ih best

/-- The stateful pruned minimum over a nonempty sample from a duplicate-free
sub-pool of the universe equals the first full-entropy minimum. -/
lemma py_min_eq (allowed_numbers : List ℕ) (hnd : allowed_numbers.Nodup)
    (hsub : allowed_numbers ⊆ ALL_NUMBERS) (x : ℕ) (xs : List ℕ) :
    py_min allowed_numbers (x :: xs) =
      argmin_first (question_entropy_full allowed_numbers) (x :: xs) := by
  have h9 : allowed_numbers.length ≤ 9000 :=
    le_trans (hnd.subperm hsub).length_le ALL_NUMBERS_length_le
  have hbound := question_entropy_full_lt allowed_numbers x h9
  rcases question_entropy_spec allowed_numbers x (10 ^ 9) with ⟨heq, _⟩ | ⟨hgt, hlef, _⟩
  · simp only [py_min, argmin_first]
    rw [heq]
    exact min_loop_eq allowed_numbers xs x
  · exfalso
    have : (10 ^ 9 : ℝ) < question_entropy_full allowed_numbers x :=
      lt_of_lt_of_le hgt hlef
    linarith

/-- C1: for every step, history, and duplicate-free candidate pool drawn
from the universe whose filtered form is non-empty, the probe returned by
get_best_question under the early-exit entropy evaluator equals the probe
obtained by minimizing the full, non-pruned entropy sum over the same
sample, ties broken by the same sample iteration order. -/
theorem C1_pruning_refines_full_min (step : ℕ) (history : List (ℕ × (ℤ × ℤ)))
    (pool shuffled : List ℕ) (hnd : pool.Nodup) (hsub : pool ⊆ ALL_NUMBERS)
    (hperm : shuffled.Perm (filter_pool step history pool))
    (hne : filter_pool step history pool ≠ []) :
    get_best_question step history pool shuffled =
      argmin_first (question_entropy_full (filter_pool step history pool))
        (shuffled.take (10 ^ (step - 1))) := by
  have hfnd : (filter_pool step history pool).Nodup := by
    unfold filter_pool
    by_cases h : 1 < step
    · rw [if_pos h]
      match history.getLast? with
      | some qa => exact hnd.filter _
      | none => exact hnd
    · rw [if_neg h]
      exact hnd
  have hfsub : filter_pool step history pool ⊆ ALL_NUMBERS := by
    unfold filter_pool
    by_cases h : 1 < step
    · rw [if_pos h]
      match history.getLast? with
      | some qa => exact fun n hn => hsub (List.filter_subset' _ hn)
      | none => exact hsub
    · rw [if_neg h]
      exact hsub
  have hsne : shuffled ≠ [] := by
    intro h
    apply hne
    have := hperm.length_eq
    rw [h] at this
    simp at this
    exact List.length_eq_zero.mp this.symm
  have htne : shuffled.take (10 ^ (step - 1)) ≠ [] := by
    intro h
    rcases List.take_eq_nil_iff.mp h with h | h
    · exact absurd h (by positivity)
    · exact hsne h
  unfold get_best_question
  match hs : shuffled.take (10 ^ (step - 1)) with
  | [] => exact absurd hs htne
  | x :: xs => exact py_min_eq _ hfnd hfsub x xs

/-- C1 witness: the refinement at the concrete first round with pool 1234. -/
theorem C1_pruning_refines_full_min_witness :
    get_best_question 1 [] [1234] [1234] =
      argmin_first (question_entropy_full (filter_pool 1 [] [1234]))
        (([1234] : List ℕ).take (10 ^ 0)) := by
  have hmem : (1234 : ℕ) ∈ ALL_NUMBERS := by
    rw [mem_ALL_NUMBERS]
    refine ⟨by norm_num, by norm_num, by decide⟩
  have hperm : ([1234] : List ℕ).Perm (filter_pool 1 [] [1234]) := by
    unfold filter_pool
    norm_num
  exact C1_pruning_refines_full_min 1 [] [1234] [1234] (by decide)
    (by intro n hn; simp at hn; rw [hn]; exact hmem) hperm (by simp [filter_pool])

/- ------------------------------------------------------------------ -/
/- Game state machine; C3, C5, C6, C10                                 -/
/- ------------------------------------------------------------------ -/

/-- The Game state (src/solver.py lines 84-113).  The last_question
attribute is only created by the first get_question, so it is an Option:
none models the attribute being unset, and reading it then is an
AttributeError. -/
structure Game where
  history : List (ℕ × (ℤ × ℤ))
  i : ℕ
  current_allowed_numbers : List ℕ
  last_question : Option ℕ
  deriving DecidableEq

/-- Game.__init__ (src/solver.py lines 85-88): empty history, round counter
zero, the full universe as pool.  The Python __init__ never writes the
last_question attribute, so it starts unset: none. -/
def Game.init : Game := ⟨[], 0, ALL_NUMBERS, none⟩

/-- Game.is_finished (src/solver.py lines 90-91). -/
def Game.is_finished (g : Game) : Bool :=
  decide (count_possible_numbers g.history ALL_NUMBERS ≤ 1)

/-- Game.get_question (src/solver.py lines 93-97) with the random shuffle
passed explicitly: increment the round counter, filter the pool by the
newest history entry inside get_best_question (which mutates the pool the
game keeps), and record the chosen probe. -/
noncomputable def Game.get_question (g : Game) (shuffled : List ℕ) : Game :=
  { history := g.history
    i := g.i + 1
    current_allowed_numbers := filter_pool (g.i + 1) g.history g.current_allowed_numbers
    last_question :=
      some (get_best_question (g.i + 1) g.history g.current_allowed_numbers shuffled) }

/-- Game.put_answer (src/solver.py lines 99-101): the assertion
len(answer) == 2 holds for every pair; reading self.last_question on a game
that has never issued a probe raises AttributeError before anything is
appended (modelled by none); otherwise the (question, answer) entry is
appended to the history. -/
def Game.put_answer (g : Game) (answer : ℤ × ℤ) : Option Game :=
  match g.last_question with
  | some q => some { g with history := g.history ++ [(q, answer)] }
  | none => none

/-- On a fresh game the feedback call fails on the unset attribute and the
state is not modified. -/
lemma put_answer_init_none (answer : ℤ × ℤ) : Game.init.put_answer answer = none := rfl

/-- Game.is_correct (src/solver.py lines 109-110). -/
def Game.is_correct (g : Game) : Bool :=
  decide (0 < count_possible_numbers g.history ALL_NUMBERS)

/-- Game.guessed_number (src/solver.py lines 112-113). -/
def Game.guessed_number (g : Game) : Option ℕ :=
  get_unique_possible_number g.history

/-- Game states reachable by the request/answer cycle: the initial state,
and one full round (get_question with some shuffle, under the not-finished
assertion of the source, then put_answer with some feedback) from any
reachable state. -/
inductive Reachable : Game → Prop
  | init : Reachable Game.init
  | round (g : Game) (shuffled : List ℕ) (answer : ℤ × ℤ) (g2 : Game)
      (hg : Reachable g) (hfin : g.is_finished = false)
      (hput : (g.get_question shuffled).put_answer answer = some g2) :
      Reachable g2

/-- C3 counterexample: on the state after the first probe request (pool the
full universe, identity shuffle), the malformed pair (5, 5) — its sum
exceeds 4 — is not rejected: put_answer succeeds and appends it to the
history, changing the state. -/
theorem C3_counterexample :
    (4 : ℤ) < 5 + 5 ∧
      (Game.init.get_question ALL_NUMBERS).put_answer (5, 5) =
        some { Game.init.get_question ALL_NUMBERS with
          history := [(get_best_question 1 [] ALL_NUMBERS ALL_NUMBERS, (5, 5))] } ∧
      ((Game.init.get_question ALL_NUMBERS).put_answer (5, 5)).map Game.history ≠
        some (Game.init.get_question ALL_NUMBERS).history := by
  refine ⟨by norm_num, rfl, ?_⟩
  intro h
  have he : (Game.init.get_question ALL_NUMBERS).put_answer (5, 5) =
      some { Game.init.get_question ALL_NUMBERS with
        history := [(get_best_question 1 [] ALL_NUMBERS ALL_NUMBERS, (5, 5))] } := rfl
  rw [he] at h
  simp [Game.get_question, Game.init] at h

/-- C3 amended: once a probe has been requested, submitting feedback never
rejects a numeric pair.  Whether well-formed or malformed (negative values,
sum above 4), every (bulls, cows) pair is accepted — the only checks in the
source are the arity assertion len(answer) == 2, which every pair
satisfies, and the implicit read of last_question, which is set after any
probe request — and exactly one entry is appended to the history while all
other fields stay unchanged.  (Only a game that has never issued a probe
rejects feedback, via the unset-attribute read, regardless of the pair.) -/
theorem C3_put_answer_always_appends (g : Game) (shuffled : List ℕ) (answer : ℤ × ℤ) :
    ∃ g2, (g.get_question shuffled).put_answer answer = some g2 ∧
      g2.history = (g.get_question shuffled).history ++
        [(get_best_question (g.i + 1) g.history g.current_allowed_numbers shuffled, answer)] ∧
      g2.history.length = (g.get_question shuffled).history.length + 1 ∧
      g2.i = (g.get_question shuffled).i ∧
      g2.current_allowed_numbers = (g.get_question shuffled).current_allowed_numbers ∧
      g2.last_question = (g.get_question shuffled).last_question := by
  refine ⟨_, rfl, rfl, ?_, rfl, rfl, rfl⟩
  show (g.history ++
      [(get_best_question (g.i + 1) g.history g.current_allowed_numbers shuffled,
        answer)]).length = g.history.length + 1
  simp

/-- C5: with a history no universe member is consistent with, the game
reports finished, not correct, and no guessed number. -/
theorem C5_contradictory_history (g : Game)
    (hcon : ∀ n ∈ ALL_NUMBERS, all_consistent g.history n = false) :
    g.is_finished = true ∧ g.is_correct = false ∧ g.guessed_number = none := by
  have hzero : count_possible_numbers g.history ALL_NUMBERS = 0 := by
    unfold count_possible_numbers
    apply List.countP_eq_zero.mpr
    intro a ha
    rw [hcon a ha]
    simp
  refine ⟨?_, ?_, ?_⟩
  · unfold Game.is_finished
    rw [hzero]
    rfl
  · unfold Game.is_correct
    rw [hzero]
    rfl
  · unfold Game.guessed_number get_unique_possible_number
    apply List.find?_eq_none.mpr
    intro x hx
    rw [hcon x hx]
    simp

/-- C5 witness: the manually-fed history answering both (4,0) and (0,0) to
probe 1234 is contradictory, and the game reports it as such. -/
theorem C5_contradictory_history_witness :
    (⟨[(1234, (4, 0)), (1234, (0, 0))], 2, [], some 1234⟩ : Game).is_finished = true ∧
      (⟨[(1234, (4, 0)), (1234, (0, 0))], 2, [], some 1234⟩ : Game).is_correct = false ∧
      (⟨[(1234, (4, 0)), (1234, (0, 0))], 2, [], some 1234⟩ : Game).guessed_number = none := by
  apply C5_contradictory_history
  intro n _
  unfold all_consistent number_is_consistent_with_qa
  simp only [List.all_cons, List.all_nil, Bool.and_true]
  by_cases hd : (((count_bulls_and_cows n 1234).1 : ℤ),
      ((count_bulls_and_cows n 1234).2 : ℤ)) = ((4 : ℤ), (0 : ℤ))
  · rw [decide_eq_true hd, decide_eq_false]
    · simp
    · rw [hd]
      decide
  · rw [decide_eq_false hd]
    simp

/-- The single filtering step of get_best_question restores the full
consistency invariant: a pool consistent with all but the newest history
entry, filtered by that newest entry, is consistent with the whole
history. -/
lemma filter_pool_step (g : Game) (hi : g.i = g.history.length)
    (hinv : ∀ n, n ∈ g.current_allowed_numbers ↔
      (n ∈ ALL_NUMBERS ∧ all_consistent g.history.dropLast n = true)) (n : ℕ) :
    n ∈ filter_pool (g.i + 1) g.history g.current_allowed_numbers ↔
      (n ∈ ALL_NUMBERS ∧ all_consistent g.history n = true) := by
  by_cases hh : g.history = []
  · have hi0 : g.i = 0 := by rw [hi, hh]; rfl
    have hfp : filter_pool (g.i + 1) g.history g.current_allowed_numbers =
        g.current_allowed_numbers := by
      unfold filter_pool
      rw [if_neg (by omega)]
    rw [hfp]
    have hbase := hinv n
    rw [hh] at hbase ⊢
    simpa [all_consistent] using hbase
  · have hlen : 0 < g.history.length := List.length_pos.mpr hh
    have hlast := List.getLast?_eq_getLast g.history hh
    have hfp : filter_pool (g.i + 1) g.history g.current_allowed_numbers =
        g.current_allowed_numbers.filter (fun number =>
          number_is_consistent_with_qa number (g.history.getLast hh).1
            (g.history.getLast hh).2) := by
      unfold filter_pool
      rw [if_pos (by omega), hlast]
    rw [hfp, List.mem_filter, hinv n]
    have hsplit : all_consistent g.history n =
        (all_consistent g.history.dropLast n &&
          number_is_consistent_with_qa n (g.history.getLast hh).1
            (g.history.getLast hh).2) := by
      conv_lhs => rw [← List.dropLast_append_getLast hh]
      simp [all_consistent, List.all_append]
    rw [hsplit, Bool.and_eq_true]
    tauto

/-- Every reachable game state keeps its round counter equal to the history
length and its pool equal to the universe members consistent with all but
the newest history entry (with an empty history, the full universe). -/
lemma reachable_inv (g : Game) (h : Reachable g) :
    g.i = g.history.length ∧
      ∀ n, n ∈ g.current_allowed_numbers ↔
        (n ∈ ALL_NUMBERS ∧ all_consistent g.history.dropLast n = true) := by
  induction h with
  | init =>
    refine ⟨rfl, ?_⟩
    intro n
    simp [Game.init, all_consistent]
  | round g shuffled answer g2 hg hfin hput ih =>
    obtain ⟨hi, hinv⟩ := ih
    have hR : (g.get_question shuffled).put_answer answer =
        some ⟨g.history ++
            [(get_best_question (g.i + 1) g.history g.current_allowed_numbers shuffled,
              answer)],
          g.i + 1,
          filter_pool (g.i + 1) g.history g.current_allowed_numbers,
          some (get_best_question (g.i + 1) g.history g.current_allowed_numbers shuffled)⟩ :=
      rfl
    rw [hR] at hput
    have hg2 := Option.some.inj hput
    subst hg2
    constructor
    · simp [hi]
    · intro n
      simp only [List.dropLast_concat]
      exact filter_pool_step g hi hinv n

/-- C6: after every probe request from a reachable, unfinished game state,
the candidate pool is exactly the set of universe members consistent with
every history entry recorded so far — maintained by filtering only on the
newest entry (no filtering on the first round). -/
theorem C6_pool_exactly_consistent (g : Game) (hg : Reachable g)
    (hfin : g.is_finished = false) (shuffled : List ℕ) (n : ℕ) :
    n ∈ (g.get_question shuffled).current_allowed_numbers ↔
      (n ∈ ALL_NUMBERS ∧
        all_consistent (g.get_question shuffled).history n = true) := by
  obtain ⟨hi, hinv⟩ := reachable_inv g hg
  have hpool : (g.get_question shuffled).current_allowed_numbers =
      filter_pool (g.i + 1) g.history g.current_allowed_numbers := rfl
  have hhist : (g.get_question shuffled).history = g.history := rfl
  rw [hpool, hhist]
  exact filter_pool_step g hi hinv n

/-- Two distinct members force length at least two. -/
lemma one_lt_length_of_two_mem {l : List ℕ} {x y : ℕ} (hx : x ∈ l) (hy : y ∈ l)
    (hxy : x ≠ y) : 1 < l.length := by
  match l with
  | [] => simp at hx
  | [a] =>
    simp at hx hy
    exact absurd (hx.trans hy.symm) hxy
  | a :: b :: t =>
    simp only [List.length_cons]
    omega

/-- The fresh game is not finished: the universe still holds more than one
candidate. -/
lemma init_not_finished : Game.init.is_finished = false := by
  have h1 : (1023 : ℕ) ∈ ALL_NUMBERS := by
    rw [mem_ALL_NUMBERS]
    exact ⟨by norm_num, by norm_num, by decide⟩
  have h2 : (1024 : ℕ) ∈ ALL_NUMBERS := by
    rw [mem_ALL_NUMBERS]
    exact ⟨by norm_num, by norm_num, by decide⟩
  have hlen : 1 < ALL_NUMBERS.length := one_lt_length_of_two_mem h1 h2 (by norm_num)
  have hcount : count_possible_numbers [] ALL_NUMBERS = ALL_NUMBERS.length :=
    List.countP_eq_length.mpr (fun x _ => rfl)
  unfold Game.is_finished
  apply decide_eq_false
  show ¬count_possible_numbers Game.init.history ALL_NUMBERS ≤ 1
  have : Game.init.history = [] := rfl
  rw [this, hcount]
  omega

/-- C6 witness: the invariant after the first probe request of a fresh
game, checked at candidate 1234. -/
theorem C6_pool_exactly_consistent_witness :
    1234 ∈ (Game.init.get_question []).current_allowed_numbers ↔
      (1234 ∈ ALL_NUMBERS ∧
        all_consistent (Game.init.get_question []).history 1234 = true) :=
  C6_pool_exactly_consistent Game.init Reachable.init init_not_finished [] 1234

/-- The universe list is strictly increasing. -/
lemma ALL_NUMBERS_pairwise : ALL_NUMBERS.Pairwise (· < ·) :=
  (List.pairwise_lt_range' 1000 9000).filter is_allowed_number

/-- In a strictly increasing list, find? returns a minimal match. -/
lemma find?_min (p : ℕ → Bool) : ∀ l : List ℕ, l.Pairwise (· < ·) →
    ∀ m, l.find? p = some m → ∀ y ∈ l, p y = true → m ≤ y := by
  intro l
  induction l with
  | nil =>
    intro _ m hm
    simp at hm
  | cons a l ih =>
    intro hp m hm y hy hpy
    rw [List.pairwise_cons] at hp
    by_cases hpa : p a = true
    · rw [List.find?_cons_of_pos _ hpa] at hm
      injection hm with hm
      subst hm
      rcases List.mem_cons.mp hy with rfl | hy
      · exact le_refl _
      · exact le_of_lt (hp.1 y hy)
    · rw [List.find?_cons_of_neg _ hpa] at hm
      rcases List.mem_cons.mp hy with rfl | hy
      · exact absurd hpy hpa
      · exact ih hp.2 m hm y hy hpy

/-- C10: when some universe member is consistent with the whole history,
get_unique_possible_number returns the numerically smallest such
member (the universe is enumerated in ascending order and the first
consistent element is returned); with no consistent member it returns
none. -/
theorem C10_first_consistent (history : List (ℕ × (ℤ × ℤ))) :
    ((∃ n ∈ ALL_NUMBERS, all_consistent history n = true) →
      ∃ m, get_unique_possible_number history = some m ∧ m ∈ ALL_NUMBERS ∧
        all_consistent history m = true ∧
        ∀ y ∈ ALL_NUMBERS, all_consistent history y = true → m ≤ y) ∧
    ((∀ n ∈ ALL_NUMBERS, all_consistent history n = false) →
      get_unique_possible_number history = none) := by
  constructor
  · intro hex
    have hsome : (ALL_NUMBERS.find? (all_consistent history)).isSome := by
      rw [List.find?_isSome]
      exact hex
    obtain ⟨m, hm⟩ := Option.isSome_iff_exists.mp hsome
    exact ⟨m, hm, List.mem_of_find?_eq_some hm, List.find?_some hm,
      find?_min (all_consistent history) ALL_NUMBERS ALL_NUMBERS_pairwise m hm⟩
  · intro hall
    apply List.find?_eq_none.mpr
    intro x hx
    rw [hall x hx]
    simp

/-- C10 witness: on the empty history every universe member is consistent
and the returned value is the minimal one. -/
theorem C10_first_consistent_witness :
    ∃ m, get_unique_possible_number [] = some m ∧ m ∈ ALL_NUMBERS ∧
      all_consistent [] m = true ∧
      ∀ y ∈ ALL_NUMBERS, all_consistent [] y = true → m ≤ y :=
  (C10_first_consistent []).1
    ⟨1023, by rw [mem_ALL_NUMBERS]; exact ⟨by norm_num, by norm_num, by decide⟩, rfl⟩

end BullsAndCows
